import Mathlib

/-!
Verification of the CDN version updater script
(`update_html_versions.py`).

The script is embedded shallowly: text is `List Char`, the regular
expressions of the script are translated into deterministic scanners
(the patterns involved have no observable backtracking: every character
class in them is disjoint from the literal that follows it), file
contents are passed explicitly, and the file system of the driver is a
partial map from paths to contents.  The character classes `\w` and
`\d` are modelled over ASCII, the alphabet of the texts the script
processes.
-/

namespace CdnUpdater

/-- Numeric value of a list of decimal digit characters, as Python's
`int` computes it on a digit string. -/
def digitsToNat (l : List Char) : Nat :=
  l.foldl (fun a c => 10 * a + (c.toNat - 48)) 0

/-- Recursion structure for `natDigits`, on an explicit bound that
shrinks at each division by ten. -/
def natDigitsAux : Nat → Nat → List Char
  | 0, _ => []
  | fuel + 1, n =>
    if n < 10 then [Char.ofNat (48 + n)]
    else natDigitsAux fuel (n / 10) ++ [Char.ofNat (48 + n % 10)]

/-- Decimal digit characters of `n`, most significant first, as Python's
`d` format code prints a non-negative integer. -/
def natDigits (n : Nat) : List Char :=
  natDigitsAux (n + 1) n

theorem natDigitsAux_congr : ∀ f1 f2 n, n < f1 → n < f2 →
    natDigitsAux f1 n = natDigitsAux f2 n := by
  intro f1
  induction f1 with
  | zero => intro f2 n h1; omega
  | succ f1 ih =>
    intro f2 n h1 h2
    cases f2 with
    | zero => omega
    | succ f2 =>
      show (if n < 10 then _ else _) = (if n < 10 then _ else _)
      split
      · rfl
      · rename_i hn
        rw [ih f2 (n / 10) (by omega) (by omega)]

theorem natDigits_unfold (n : Nat) :
    natDigits n = if n < 10 then [Char.ofNat (48 + n)]
      else natDigits (n / 10) ++ [Char.ofNat (48 + n % 10)] := by
  show natDigitsAux (n + 1) n = _
  rw [natDigitsAux]
  split
  · rfl
  · rename_i hn
    rw [natDigitsAux_congr n (n / 10 + 1) (n / 10) (by omega) (by omega)]
    rfl

/-- Python's `02d` format: decimal digits, zero padded on the left to a
minimum width of two characters (never truncated). -/
def pad2 (n : Nat) : List Char :=
  if n < 10 then '0' :: natDigits n else natDigits n

/-- Whether a text does not begin with a decimal digit.  A maximal digit
run is followed by a text satisfying this predicate. -/
def noDigitHead : List Char → Bool
  | [] => true
  | c :: _ => !c.isDigit

/-- One digit group of the pattern `(\d+)`: the maximal run of digits at
the start of the text, which must be nonempty.  Returns the captured
group and the remaining text. -/
def parseGroup (l : List Char) : Option (List Char × List Char) :=
  if (l.takeWhile Char.isDigit).isEmpty then none
  else some (l.takeWhile Char.isDigit, l.dropWhile Char.isDigit)

/-- The literal `\.` of the pattern: the text must begin with a dot. -/
def expectDot (l : List Char) : Option (List Char) :=
  match l with
  | c :: t => if c = '.' then some t else none
  | [] => none

/-- Scanner for the regular expression `(\d+)\.(\d+)\.(\d+)` anchored at
the start of the text (Python `re.match`): three nonempty maximal digit
groups separated by dots.  Returns the three captured groups and the
remaining text.  Greedy `\d+` followed by a literal dot is
deterministic, because a digit is never a dot. -/
def parseTriple (l : List Char) : Option (List Char × List Char × List Char × List Char) :=
  match parseGroup l with
  | none => none
  | some (M, r1) =>
    match expectDot r1 with
    | none => none
    | some l1 =>
      match parseGroup l1 with
      | none => none
      | some (m, r2) =>
        match expectDot r2 with
        | none => none
        | some l2 =>
          match parseGroup l2 with
          | none => none
          | some (p, rest) => some (M, m, p, rest)

/-- The function `increment_version` of the script: match
`(\d+)\.(\d+)\.(\d+)` at the start of the string; on failure return the
input unchanged; on success return
`f"{major}.{minor}.{new_patch:02d}"` with `new_patch = int(patch) + 1`. -/
def increment_version (s : String) : String :=
  match parseTriple s.data with
  | none => s
  | some (M, m, p, _) => String.mk (M ++ '.' :: m ++ '.' :: pad2 (digitsToNat p + 1))

/-- The literal text of the regex constant `CDN_URL_PATTERN` of the
script (the pattern contains no metacharacters beyond escaped dots, so
it denotes this fixed host string). -/
def cdnHost : List Char := "https://pub-85443b585f1e4411ab5cc976c4fb08ca.r2.dev/".data

/-- Membership in the character class `[\w_.-]` of the script's
filename pattern: word characters (letters, digits, underscore), dots
and hyphens. -/
def isClassChar (c : Char) : Bool :=
  c.isAlphanum || c == '_' || c == '.' || c == '-'

/-- Whether a maximal class-character run can be consumed exactly by
`[\w_.-]+\.(?:js|css)`: it must end in `.js` or `.css` with a nonempty
stem before the dot. -/
def extOk (R : List Char) : Bool :=
  (".js".data.isSuffixOf R && decide (4 ≤ R.length)) ||
  (".css".data.isSuffixOf R && decide (5 ≤ R.length))

/-- Scanner for the part of the script's CDN pattern after the fixed
host, `[\w_.-]+\.(?:js|css)\?v=(\d+)\.(\d+)\.(\d+)`, anchored at the
start of `l1`.  Returns the filename (the consumed class run), the three
version groups, and the text after the match.  The filename part must
consume the entire maximal class run, because the literal `?` that must
follow it is not a class character. -/
def matchTail (l1 : List Char) : Option (List Char × List Char × List Char × List Char × List Char) :=
  if extOk (l1.takeWhile isClassChar) &&
      "?v=".data.isPrefixOf (l1.dropWhile isClassChar) then
    match parseTriple ((l1.dropWhile isClassChar).drop 3) with
    | some (M, m, p, rest) => some (l1.takeWhile isClassChar, M, m, p, rest)
    | none => none
  else none

/-- Scanner for one attempt of the script's full CDN pattern
`(host[\w_.-]+\.(?:js|css))\?v=(\d+)\.(\d+)\.(\d+)` anchored at the
start of `l`.  Returns the captured base (group 1), the three version
groups, and the text after the match. -/
def matchAt (l : List Char) : Option (List Char × List Char × List Char × List Char × List Char) :=
  if cdnHost.isPrefixOf l then
    match matchTail (l.drop cdnHost.length) with
    | some (R, M, m, p, rest) => some (cdnHost ++ R, M, m, p, rest)
    | none => none
  else none

theorem isPrefixOf_ex {a l : List Char} (h : a.isPrefixOf l = true) :
    ∃ t, l = a ++ t := by
  induction a generalizing l with
  | nil => exact ⟨l, rfl⟩
  | cons c a ih =>
    cases l with
    | nil => simp [List.isPrefixOf] at h
    | cons d l =>
      simp only [List.isPrefixOf, Bool.and_eq_true, beq_iff_eq] at h
      obtain ⟨t, ht⟩ := ih h.2
      exact ⟨t, by simp [h.1, ht]⟩

theorem isPrefixOf_append_self (a b : List Char) : a.isPrefixOf (a ++ b) = true := by
  induction a with
  | nil => simp
  | cons c a ih => simp [List.isPrefixOf, ih]

theorem noDigitHead_dropWhile (l : List Char) :
    noDigitHead (l.dropWhile Char.isDigit) = true := by
  induction l with
  | nil => rfl
  | cons c t ih =>
    rw [List.dropWhile_cons]
    split
    · exact ih
    · rename_i hc
      simp only [noDigitHead, Bool.not_eq_true']
      exact Bool.not_eq_true _ ▸ by simpa using hc

theorem takeWhile_nil_of_noDigitHead {r : List Char} (h : noDigitHead r = true) :
    r.takeWhile Char.isDigit = [] := by
  cases r with
  | nil => rfl
  | cons c t =>
    simp only [noDigitHead, Bool.not_eq_true'] at h
    simp [List.takeWhile_cons, h]

theorem dropWhile_self_of_noDigitHead {r : List Char} (h : noDigitHead r = true) :
    r.dropWhile Char.isDigit = r := by
  cases r with
  | nil => rfl
  | cons c t =>
    simp only [noDigitHead, Bool.not_eq_true'] at h
    simp [List.dropWhile_cons, h]

theorem mem_takeWhile_sat {p : Char → Bool} {l : List Char} {c : Char}
    (h : c ∈ l.takeWhile p) : p c = true := by
  induction l with
  | nil => simp [List.takeWhile] at h
  | cons d t ih =>
    rw [List.takeWhile_cons] at h
    split at h
    · rcases List.mem_cons.1 h with rfl | h2
      · assumption
      · exact ih h2
    · simp at h

theorem parseGroup_sound {l g r : List Char} (h : parseGroup l = some (g, r)) :
    l = g ++ r ∧ g ≠ [] ∧ (∀ c ∈ g, c.isDigit = true) ∧ noDigitHead r = true := by
  unfold parseGroup at h
  split at h
  · exact absurd h (by simp)
  · rename_i hne
    simp only [Option.some.injEq, Prod.mk.injEq] at h
    obtain ⟨hg, hr⟩ := h
    subst hg
    subst hr
    refine ⟨(List.takeWhile_append_dropWhile ..).symm, ?_, fun c hc => mem_takeWhile_sat hc,
      noDigitHead_dropWhile l⟩
    simpa [List.isEmpty_iff] using hne

theorem parseGroup_complete {g r : List Char} (hg : g ≠ [])
    (dg : ∀ c ∈ g, c.isDigit = true) (hr : noDigitHead r = true) :
    parseGroup (g ++ r) = some (g, r) := by
  have h1 : (g ++ r).takeWhile Char.isDigit = g := by
    rw [List.takeWhile_append_of_pos dg, takeWhile_nil_of_noDigitHead hr, List.append_nil]
  have h2 : (g ++ r).dropWhile Char.isDigit = r := by
    rw [List.dropWhile_append_of_pos dg, dropWhile_self_of_noDigitHead hr]
  have h3 : g.isEmpty = false := by
    cases g
    · exact absurd rfl hg
    · rfl
  unfold parseGroup
  rw [h1, h2, h3]
  simp

theorem expectDot_sound {r t : List Char} (h : expectDot r = some t) : r = '.' :: t := by
  unfold expectDot at h
  split at h
  · split at h
    · rename_i hc
      simp only [Option.some.injEq] at h
      simp [hc, h]
    · exact absurd h (by simp)
  · exact absurd h (by simp)

theorem parseTriple_sound {l M m p r : List Char}
    (h : parseTriple l = some (M, m, p, r)) :
    l = M ++ '.' :: (m ++ '.' :: (p ++ r)) ∧ M ≠ [] ∧ m ≠ [] ∧ p ≠ [] ∧
    (∀ c ∈ M, c.isDigit = true) ∧ (∀ c ∈ m, c.isDigit = true) ∧
    (∀ c ∈ p, c.isDigit = true) ∧ noDigitHead r = true := by
  unfold parseTriple at h
  split at h
  · exact absurd h (by simp)
  rename_i M1 r1 hg1
  split at h
  · exact absurd h (by simp)
  rename_i l1 hd1
  split at h
  · exact absurd h (by simp)
  rename_i m1 r2 hg2
  split at h
  · exact absurd h (by simp)
  rename_i l2 hd2
  split at h
  · exact absurd h (by simp)
  rename_i p1 rest1 hg3
  simp only [Option.some.injEq, Prod.mk.injEq] at h
  obtain ⟨rfl, rfl, rfl, rfl⟩ := h
  obtain ⟨e1, n1, d1, -⟩ := parseGroup_sound hg1
  have e2 := expectDot_sound hd1
  obtain ⟨e3, n3, d3, -⟩ := parseGroup_sound hg2
  have e4 := expectDot_sound hd2
  obtain ⟨e5, n5, d5, h5⟩ := parseGroup_sound hg3
  subst e5
  rw [e4] at e3
  rw [e2] at e1
  rw [e3] at e1
  exact ⟨e1, n1, n3, n5, d1, d3, d5, h5⟩

theorem parseTriple_complete {M m p r : List Char} (hM : M ≠ []) (hm : m ≠ [])
    (hp : p ≠ []) (dM : ∀ c ∈ M, c.isDigit = true) (dm : ∀ c ∈ m, c.isDigit = true)
    (dp : ∀ c ∈ p, c.isDigit = true) (hr : noDigitHead r = true) :
    parseTriple (M ++ '.' :: (m ++ '.' :: (p ++ r))) = some (M, m, p, r) := by
  have g1 : parseGroup (M ++ '.' :: (m ++ '.' :: (p ++ r))) =
      some (M, '.' :: (m ++ '.' :: (p ++ r))) := parseGroup_complete hM dM rfl
  have g2 : parseGroup (m ++ '.' :: (p ++ r)) = some (m, '.' :: (p ++ r)) :=
    parseGroup_complete hm dm rfl
  have g3 : parseGroup (p ++ r) = some (p, r) := parseGroup_complete hp dp hr
  unfold parseTriple
  rw [g1]
  simp [expectDot, g2, g3]

theorem parseTriple_rest_le {l M m p r : List Char}
    (h : parseTriple l = some (M, m, p, r)) : r.length ≤ l.length := by
  obtain ⟨e, -⟩ := parseTriple_sound h
  subst e
  simp
  omega

theorem matchTail_sound {l1 R M m p r : List Char}
    (h : matchTail l1 = some (R, M, m, p, r)) :
    l1 = R ++ '?' :: 'v' :: '=' :: (M ++ '.' :: (m ++ '.' :: (p ++ r))) ∧
    (∀ c ∈ R, isClassChar c = true) ∧ extOk R = true ∧ M ≠ [] ∧ m ≠ [] ∧ p ≠ [] ∧
    (∀ c ∈ M, c.isDigit = true) ∧ (∀ c ∈ m, c.isDigit = true) ∧
    (∀ c ∈ p, c.isDigit = true) ∧ noDigitHead r = true := by
  unfold matchTail at h
  split at h
  · rename_i hcond
    simp only [Bool.and_eq_true] at hcond
    obtain ⟨hext, hqv⟩ := hcond
    split at h
    · rename_i M' m' p' r' htr
      simp only [Option.some.injEq, Prod.mk.injEq] at h
      obtain ⟨rfl, rfl, rfl, rfl, rfl⟩ := h
      obtain ⟨t, ht⟩ := isPrefixOf_ex hqv
      obtain ⟨e, h2⟩ := parseTriple_sound htr
      have hdrop : (l1.dropWhile isClassChar).drop 3 = t := by
        rw [ht]
        rfl
      rw [hdrop] at e
      subst e
      refine ⟨?_, fun c hc => mem_takeWhile_sat hc, hext, h2⟩
      conv_lhs => rw [← List.takeWhile_append_dropWhile (p := isClassChar) (l := l1)]
      rw [ht]
      rfl
    · exact absurd h (by simp)
  · exact absurd h (by simp)

theorem matchAt_sound {l b M m p r : List Char}
    (h : matchAt l = some (b, M, m, p, r)) :
    ∃ R, b = cdnHost ++ R ∧
    l = cdnHost ++ R ++ '?' :: 'v' :: '=' :: (M ++ '.' :: (m ++ '.' :: (p ++ r))) ∧
    (∀ c ∈ R, isClassChar c = true) ∧ extOk R = true ∧ M ≠ [] ∧ m ≠ [] ∧ p ≠ [] ∧
    (∀ c ∈ M, c.isDigit = true) ∧ (∀ c ∈ m, c.isDigit = true) ∧
    (∀ c ∈ p, c.isDigit = true) ∧ noDigitHead r = true := by
  unfold matchAt at h
  split at h
  · rename_i hpre
    split at h
    · rename_i R' M' m' p' r' htl
      simp only [Option.some.injEq, Prod.mk.injEq] at h
      obtain ⟨rfl, rfl, rfl, rfl, rfl⟩ := h
      obtain ⟨t, ht⟩ := isPrefixOf_ex hpre
      have hdrop : l.drop cdnHost.length = t := by
        rw [ht, List.drop_left]
      obtain ⟨e, hcl, hrest⟩ := matchTail_sound htl
      rw [hdrop] at e
      subst e
      exact ⟨R', rfl, by rw [ht, List.append_assoc], hcl, hrest⟩
    · exact absurd h (by simp)
  · exact absurd h (by simp)

theorem matchAt_rest_length {l b M m p r : List Char}
    (h : matchAt l = some (b, M, m, p, r)) : r.length < l.length := by
  obtain ⟨R, -, e, -⟩ := matchAt_sound h
  subst e
  have : cdnHost.length = 52 := by decide
  simp_all
  omega

/-- Last path segment of a base URL: Python's `url_base.split('/')[-1]`
(everything after the final slash). -/
def fnameOf (b : List Char) : List Char :=
  (b.reverse.takeWhile (fun c => !(c == '/'))).reverse

/-- One pass of `pattern.sub(replace_version, content)` together with
the `change_count` and the `version_changes` assignments of
`update_cdn_versions`, at the character-list level.  The substitution
scans left to right; at a match it emits
`f"{url_base}?v={new_version}"`, counts the change, and records
`(filename, old, new)`; otherwise it copies one character and
continues.  The recorded triples are kept in occurrence order; the
Python dict built from them is recovered by `fileDict` below. -/
def updateCdnAux (l : List Char) : List Char × Nat × List (String × String × String) :=
  match h : matchAt l with
  | some (b, M, m, p, r) =>
    let oldV : String := String.mk (M ++ '.' :: m ++ '.' :: p)
    let newV : String := increment_version oldV
    let res := updateCdnAux r
    (b ++ '?' :: 'v' :: '=' :: newV.data ++ res.1, res.2.1 + 1,
      (String.mk (fnameOf b), oldV, newV) :: res.2.2)
  | none =>
    match l with
    | [] => ([], 0, [])
    | c :: cs =>
      let res := updateCdnAux cs
      (c :: res.1, res.2.1, res.2.2)
termination_by l.length
decreasing_by
· exact matchAt_rest_length h
· simp

/-- The function `update_cdn_versions` of the script, returning the
updated content, the change count, and the recorded changes in
occurrence order. -/
def update_cdn_versions (content : String) :
    String × Nat × List (String × String × String) :=
  let r := updateCdnAux content.data
  (String.mk r.1, r.2.1, r.2.2)

/-- Assignment `d[k] = v` on a Python dict represented as its item list
in insertion order: an existing key keeps its position and gets the new
value, a new key is appended at the end. -/
def pyInsert (d : List (String × String × String)) (k : String) (v : String × String) :
    List (String × String × String) :=
  if d.any (fun e => e.1 == k) then
    d.map (fun e => if e.1 == k then (k, v) else e)
  else d ++ [(k, v)]

/-- Lookup `d[k]` on a Python dict represented as its item list. -/
def pyGet (d : List (String × String × String)) (k : String) : Option (String × String) :=
  (d.find? (fun e => e.1 == k)).map (fun e => e.2)

/-- The dict `version_changes` that `update_cdn_versions` builds from
the recorded changes of one file: the assignments
`version_changes[filename] = (old, new)` executed in occurrence
order. -/
def fileDict (entries : List (String × String × String)) :
    List (String × String × String) :=
  entries.foldl (fun d e => pyInsert d e.1 e.2) []

/-- The merge step of `main` for one file's `version_changes`: each item
is added to the run-wide summary only if its filename is not present
yet. -/
def mergeFile (acc d : List (String × String × String)) :
    List (String × String × String) :=
  d.foldl (fun a e => if a.any (fun x => x.1 == e.1) then a else a ++ [e]) acc

/-- The run-wide summary dict `all_version_changes` of `main`, built by
merging the per-file dicts in processing order. -/
def runSummary (dicts : List (List (String × String × String))) :
    List (String × String × String) :=
  dicts.foldl mergeFile []

/-- Declarative reading of the run-wide summary: the value for a
filename comes from the first processed file whose dict contains it. -/
def summaryLookup (dicts : List (List (String × String × String))) (k : String) :
    Option (String × String) :=
  match dicts with
  | [] => none
  | d :: ds =>
    match pyGet d k with
    | some v => some v
    | none => summaryLookup ds k

/-- The function `process_html_file` of the script over an explicit
file system (a partial map from paths to contents; a path mapped to
`none` is one whose `open`/`read` raises, which the script catches).
Returns the file system after the call, the `success` flag, whether a
write was performed, the change count, and the per-file dict. -/
def process_html_file (fs : String → Option String) (path : String) :
    (String → Option String) × Bool × Bool × Nat × List (String × String × String) :=
  match fs path with
  | none => (fs, false, false, 0, [])
  | some content =>
    let r := update_cdn_versions content
    if 0 < r.2.1 then
      ((fun q => if q = path then some r.1 else fs q), true, true, r.2.1, fileDict r.2.2)
    else (fs, true, false, 0, [])

/-- One iteration of the file loop of `main`: process one path, append
it to the error log on failure, and on success with changes update the
modified-file counter, the total change counter, and the run-wide
summary (first-seen filename wins). -/
def mainStep
    (st : (String → Option String) × List String × Nat × Nat ×
      List (String × String × String)) (path : String) :
    (String → Option String) × List String × Nat × Nat ×
      List (String × String × String) :=
  let r := process_html_file st.1 path
  if r.2.1 = false then (r.1, st.2.1 ++ [path], st.2.2.1, st.2.2.2.1, st.2.2.2.2)
  else if 0 < r.2.2.2.1 then
    (r.1, st.2.1, st.2.2.1 + 1, st.2.2.2.1 + r.2.2.2.1,
      mergeFile st.2.2.2.2 r.2.2.2.2)
  else (r.1, st.2.1, st.2.2.1, st.2.2.2.1, st.2.2.2.2)

/-- The function `main` of the script after root resolution, over the
outcome of the existence check of the HTML directory and the sorted
list of discovered files.  Returns the exit code, the final file
system, the error log (the paths whose processing raised), the number
of files modified, the total change count, and the run-wide summary. -/
def main (dirExists : Bool) (paths : List String) (fs0 : String → Option String) :
    Nat × (String → Option String) × List String × Nat × Nat ×
      List (String × String × String) :=
  if dirExists = false then (1, fs0, [], 0, 0, [])
  else if paths.isEmpty then (1, fs0, [], 0, 0, [])
  else
    let final := paths.foldl mainStep (fs0, [], 0, 0, [])
    (0, final.1, final.2.1, final.2.2.1, final.2.2.2.1, final.2.2.2.2)

theorem updateCdn_nil : updateCdnAux [] = ([], 0, []) := by
  rw [updateCdnAux]
  split
  · rename_i heq
    have hn : matchAt [] = none := by decide
    rw [hn] at heq
    exact absurd heq (by simp)
  · rfl

theorem updateCdn_step {l b M m p r : List Char} (h : matchAt l = some (b, M, m, p, r)) :
    updateCdnAux l =
      (b ++ '?' :: 'v' :: '=' ::
          (increment_version (String.mk (M ++ '.' :: m ++ '.' :: p))).data ++
          (updateCdnAux r).1,
        (updateCdnAux r).2.1 + 1,
        (String.mk (fnameOf b), String.mk (M ++ '.' :: m ++ '.' :: p),
          increment_version (String.mk (M ++ '.' :: m ++ '.' :: p))) :: (updateCdnAux r).2.2) := by
  rw [updateCdnAux]
  split
  · rename_i b1 M1 m1 p1 r1 heq
    rw [h] at heq
    simp only [Option.some.injEq, Prod.mk.injEq] at heq
    obtain ⟨rfl, rfl, rfl, rfl, rfl⟩ := heq
    rfl
  · rename_i heq
    rw [h] at heq
    exact absurd heq (by simp)

theorem updateCdn_copy {c : Char} {cs : List Char} (h : matchAt (c :: cs) = none) :
    updateCdnAux (c :: cs) =
      (c :: (updateCdnAux cs).1, (updateCdnAux cs).2.1, (updateCdnAux cs).2.2) := by
  rw [updateCdnAux]
  split
  · rename_i b1 M1 m1 p1 r1 heq
    rw [h] at heq
    exact absurd heq (by simp)
  · rfl

theorem scan_count_eq_entries (l : List Char) :
    (updateCdnAux l).2.1 = (updateCdnAux l).2.2.length := by
  induction l using updateCdnAux.induct with
  | case1 l b M m p r h ih => rw [updateCdn_step h]; simp [ih]
  | case2 => rw [updateCdn_nil]; rfl
  | case3 l c cs h ih => rw [updateCdn_copy h]; simp [ih]

theorem natDigits_ne_nil (n : Nat) : natDigits n ≠ [] := by
  rw [natDigits_unfold]
  split
  · simp
  · simp

theorem natDigits_all_digit (n : Nat) : ∀ c ∈ natDigits n, c.isDigit = true := by
  induction n using Nat.strong_induction_on with
  | _ n ih =>
    rw [natDigits_unfold]
    split
    · rename_i h
      intro c hc
      simp only [List.mem_singleton] at hc
      subst hc
      interval_cases n <;> decide
    · rename_i h
      intro c hc
      rw [List.mem_append] at hc
      rcases hc with hc | hc
      · exact ih (n / 10) (Nat.div_lt_self (by omega) (by omega)) c hc
      · simp only [List.mem_singleton] at hc
        subst hc
        have h10 : n % 10 < 10 := Nat.mod_lt _ (by omega)
        generalize n % 10 = d at h10 ⊢
        interval_cases d <;> decide

theorem digitsToNat_append_singleton (a : List Char) (c : Char) :
    digitsToNat (a ++ [c]) = 10 * digitsToNat a + (c.toNat - 48) := by
  unfold digitsToNat
  rw [List.foldl_append]
  rfl

theorem digitsToNat_natDigits (n : Nat) : digitsToNat (natDigits n) = n := by
  induction n using Nat.strong_induction_on with
  | _ n ih =>
    rw [natDigits_unfold]
    split
    · rename_i h
      interval_cases n <;> decide
    · rename_i h
      rw [digitsToNat_append_singleton, ih (n / 10) (Nat.div_lt_self (by omega) (by omega))]
      have h10 : n % 10 < 10 := Nat.mod_lt _ (by omega)
      have hc : (Char.ofNat (48 + n % 10)).toNat = 48 + n % 10 := by
        generalize n % 10 = d at h10 ⊢
        interval_cases d <;> decide
      rw [hc]
      omega

theorem pad2_ne_nil (n : Nat) : pad2 n ≠ [] := by
  unfold pad2
  split
  · simp
  · exact natDigits_ne_nil n

theorem pad2_all_digit (n : Nat) : ∀ c ∈ pad2 n, c.isDigit = true := by
  unfold pad2
  split
  · intro c hc
    rcases List.mem_cons.1 hc with rfl | hc
    · decide
    · exact natDigits_all_digit n c hc
  · exact natDigits_all_digit n

theorem digitsToNat_pad2 (n : Nat) : digitsToNat (pad2 n) = n := by
  unfold pad2
  split
  · show digitsToNat ('0' :: natDigits n) = n
    have : digitsToNat ('0' :: natDigits n) = digitsToNat (natDigits n) := by
      unfold digitsToNat
      rfl
    rw [this, digitsToNat_natDigits]
  · exact digitsToNat_natDigits n

theorem pad2_length (n : Nat) : 2 ≤ (pad2 n).length := by
  unfold pad2
  split
  · rename_i h
    rw [natDigits_unfold]
    simp [h]
  · rename_i h
    rw [natDigits_unfold]
    split
    · omega
    · have := natDigits_ne_nil (n / 10)
      have : 1 ≤ (natDigits (n / 10)).length := by
        cases hh : natDigits (n / 10)
        · exact absurd hh this
        · simp
      simp
      omega

/-- Side conditions making `host ++ R ++ "?v=" ++ M.m.p` a qualifying
occurrence of the CDN pattern: `R` is a run of class characters that
`[\w_.-]+\.(?:js|css)` can consume exactly, and the three version groups
are nonempty digit strings. -/
def OccShape (R M m p : List Char) : Prop :=
  (∀ c ∈ R, isClassChar c = true) ∧ extOk R = true ∧ M ≠ [] ∧ m ≠ [] ∧ p ≠ [] ∧
  (∀ c ∈ M, c.isDigit = true) ∧ (∀ c ∈ m, c.isDigit = true) ∧ (∀ c ∈ p, c.isDigit = true)

instance (R M m p : List Char) : Decidable (OccShape R M m p) :=
  inferInstanceAs (Decidable (_ ∧ _))

/-- The text of a qualifying occurrence with filename run `R` and
version groups `M`, `m`, `p`. -/
def occOf (R M m p : List Char) : List Char :=
  cdnHost ++ (R ++ '?' :: 'v' :: '=' :: (M ++ '.' :: m ++ '.' :: p))

theorem occOf_append (R M m p B : List Char) :
    occOf R M m p ++ B =
      cdnHost ++ (R ++ '?' :: 'v' :: '=' :: (M ++ '.' :: (m ++ '.' :: (p ++ B)))) := by
  simp [occOf, List.append_assoc]

theorem matchTail_complete {R M m p B : List Char}
    (hR : ∀ c ∈ R, isClassChar c = true) (hext : extOk R = true)
    (hM : M ≠ []) (hm : m ≠ []) (hp : p ≠ [])
    (dM : ∀ c ∈ M, c.isDigit = true) (dm : ∀ c ∈ m, c.isDigit = true)
    (dp : ∀ c ∈ p, c.isDigit = true) (hB : noDigitHead B = true) :
    matchTail (R ++ '?' :: 'v' :: '=' :: (M ++ '.' :: (m ++ '.' :: (p ++ B)))) =
      some (R, M, m, p, B) := by
  have hq : isClassChar '?' = false := by decide
  have ht : (R ++ '?' :: 'v' :: '=' :: (M ++ '.' :: (m ++ '.' :: (p ++ B)))).takeWhile
      isClassChar = R := by
    rw [List.takeWhile_append_of_pos hR, List.takeWhile_cons_of_neg (by simp [hq]),
      List.append_nil]
  have hd : (R ++ '?' :: 'v' :: '=' :: (M ++ '.' :: (m ++ '.' :: (p ++ B)))).dropWhile
      isClassChar = '?' :: 'v' :: '=' :: (M ++ '.' :: (m ++ '.' :: (p ++ B))) := by
    rw [List.dropWhile_append_of_pos hR, List.dropWhile_cons_of_neg (by simp [hq])]
  have hqv : ("?v=".data).isPrefixOf ('?' :: 'v' :: '=' :: (M ++ '.' :: (m ++ '.' :: (p ++ B)))) =
      true := isPrefixOf_append_self "?v=".data (M ++ '.' :: (m ++ '.' :: (p ++ B)))
  have htr := parseTriple_complete hM hm hp dM dm dp hB
  unfold matchTail
  rw [ht, hd, hext, hqv]
  simp only [Bool.and_self, if_true]
  have hdrop : ('?' :: 'v' :: '=' :: (M ++ '.' :: (m ++ '.' :: (p ++ B)))).drop 3 =
      M ++ '.' :: (m ++ '.' :: (p ++ B)) := rfl
  rw [hdrop, htr]

theorem matchAt_complete {R M m p B : List Char} (hs : OccShape R M m p)
    (hB : noDigitHead B = true) :
    matchAt (occOf R M m p ++ B) = some (cdnHost ++ R, M, m, p, B) := by
  obtain ⟨hR, hext, hM, hm, hp, dM, dm, dp⟩ := hs
  rw [occOf_append]
  unfold matchAt
  rw [isPrefixOf_append_self]
  simp only [if_true]
  rw [List.drop_left, matchTail_complete hR hext hM hm hp dM dm dp hB]

/-- No attempt of the CDN pattern succeeds at any position strictly
inside `A` when the text continues with `t`. -/
def NoStart (A t : List Char) : Prop :=
  ∀ i, i < A.length → matchAt (A.drop i ++ t) = none

instance (A t : List Char) : Decidable (NoStart A t) :=
  @Nat.decidableBallLT A.length (fun i _ => matchAt (A.drop i ++ t) = none)
    (fun _ _ => inferInstance)

theorem updateCdn_noStart {A t : List Char} (h : NoStart A t) :
    updateCdnAux (A ++ t) =
      (A ++ (updateCdnAux t).1, (updateCdnAux t).2.1, (updateCdnAux t).2.2) := by
  induction A with
  | nil => simp
  | cons c A ih =>
    have h0 : matchAt (c :: (A ++ t)) = none := by
      have := h 0 (by simp)
      simpa using this
    have hrec : NoStart A t := by
      intro i hi
      have := h (i + 1) (by simp; omega)
      simpa using this
    rw [List.cons_append, updateCdn_copy h0, ih hrec]
    simp

theorem increment_version_triple {M m p : List Char} (hM : M ≠ []) (hm : m ≠ [])
    (hp : p ≠ []) (dM : ∀ c ∈ M, c.isDigit = true) (dm : ∀ c ∈ m, c.isDigit = true)
    (dp : ∀ c ∈ p, c.isDigit = true) :
    increment_version (String.mk (M ++ '.' :: m ++ '.' :: p)) =
      String.mk (M ++ '.' :: m ++ '.' :: pad2 (digitsToNat p + 1)) := by
  unfold increment_version
  have hparse : parseTriple (M ++ '.' :: m ++ '.' :: p) = some (M, m, p, []) := by
    have := parseTriple_complete hM hm hp dM dm dp (r := []) rfl
    simpa using this
  rw [show (String.mk (M ++ '.' :: m ++ '.' :: p)).data = M ++ '.' :: m ++ '.' :: p from rfl,
    hparse]

theorem scan_head (l : List Char) : (updateCdnAux l).1.head? = l.head? := by
  cases h : matchAt l with
  | some q =>
    obtain ⟨b, M, m, p, r⟩ := q
    rw [updateCdn_step h]
    obtain ⟨R, rfl, e, -⟩ := matchAt_sound h
    rw [e]
    rfl
  | none =>
    cases l with
    | nil => rw [updateCdn_nil]
    | cons c cs =>
      rw [updateCdn_copy h]
      rfl

theorem data_mk (l : List Char) : (String.mk l).data = l := rfl

theorem scan_out_zero {l : List Char} (h : (updateCdnAux l).2.1 = 0) :
    (updateCdnAux l).1 = l := by
  induction l using updateCdnAux.induct with
  | case1 l b M m p r hm ih =>
    rw [updateCdn_step hm] at h
    simp at h
  | case2 => rw [updateCdn_nil]
  | case3 l c cs hm ih =>
    rw [updateCdn_copy hm] at h ⊢
    simp only [List.cons.injEq, true_and]
    exact ih h

theorem scan_out_ne {l : List Char} (h : 0 < (updateCdnAux l).2.1) :
    (updateCdnAux l).1 ≠ l := by
  induction l using updateCdnAux.induct with
  | case1 l b M m p r hm ih =>
    rw [updateCdn_step hm]
    obtain ⟨R, rfl, e2, hcl, hext, hM, hmne, hp, dM, dm, dp, hr⟩ := matchAt_sound hm
    rw [increment_version_triple hM hmne hp dM dm dp]
    intro heq
    rw [e2] at heq
    simp only [List.append_assoc, List.cons_append, List.append_cancel_left_eq,
      List.cons.injEq, true_and, data_mk] at heq
    rcases List.append_eq_append_iff.1 heq with ⟨a, hpa, hOa⟩ | ⟨a, hPa, hra⟩
    · cases a with
      | nil =>
        rw [List.append_nil] at hpa
        have hv : digitsToNat p = digitsToNat (pad2 (digitsToNat p + 1)) := by rw [← hpa]
        rw [digitsToNat_pad2] at hv
        omega
      | cons x a2 =>
        have hx : x.isDigit = true := dp x (by rw [hpa]; simp)
        have hO : ((updateCdnAux r).1).head? = r.head? := scan_head r
        rw [hOa] at hO
        cases r with
        | nil => simp at hO
        | cons y rs =>
          simp only [List.cons_append, List.head?_cons, Option.some.injEq] at hO
          subst hO
          simp only [noDigitHead, Bool.not_eq_true'] at hr
          rw [hr] at hx
          exact absurd hx (by simp)
    · cases a with
      | nil =>
        rw [List.append_nil] at hPa
        have hv : digitsToNat p = digitsToNat (pad2 (digitsToNat p + 1)) := by rw [hPa]
        rw [digitsToNat_pad2] at hv
        omega
      | cons x a2 =>
        have hx : x.isDigit = true := pad2_all_digit _ x (by rw [hPa]; simp)
        cases r with
        | nil => simp at hra
        | cons y rs =>
          rw [List.cons_append] at hra
          injection hra with h1 h2
          subst h1
          simp only [noDigitHead, Bool.not_eq_true'] at hr
          rw [hr] at hx
          exact absurd hx (by simp)
  | case2 =>
    rw [updateCdn_nil] at h
    simp at h
  | case3 l c cs hm ih =>
    rw [updateCdn_copy hm] at h ⊢
    simp only [ne_eq, List.cons.injEq, true_and]
    exact fun hh => ih h hh

theorem scan_entries (l : List Char) :
    ∀ e ∈ (updateCdnAux l).2.2, ∃ M m p,
      M ≠ [] ∧ m ≠ [] ∧ p ≠ [] ∧ (∀ c ∈ M, c.isDigit = true) ∧
      (∀ c ∈ m, c.isDigit = true) ∧ (∀ c ∈ p, c.isDigit = true) ∧
      e.2.1 = String.mk (M ++ '.' :: m ++ '.' :: p) ∧
      e.2.2 = String.mk (M ++ '.' :: m ++ '.' :: pad2 (digitsToNat p + 1)) := by
  induction l using updateCdnAux.induct with
  | case1 l b M m p r hm ih =>
    rw [updateCdn_step hm]
    intro e he
    rcases List.mem_cons.1 he with rfl | he2
    · obtain ⟨R, rfl, e2, hcl, hext, hM, hmne, hp, dM, dm, dp, hr⟩ := matchAt_sound hm
      exact ⟨M, m, p, hM, hmne, hp, dM, dm, dp, rfl,
        by rw [increment_version_triple hM hmne hp dM dm dp]⟩
    · exact ih e he2
  | case2 =>
    rw [updateCdn_nil]
    intro e he
    simp at he
  | case3 l c cs hm ih =>
    rw [updateCdn_copy hm]
    exact ih


theorem pyGet_cons (e : String × String × String) (d : List (String × String × String))
    (k : String) :
    pyGet (e :: d) k = if e.1 = k then some e.2 else pyGet d k := by
  unfold pyGet
  by_cases h : e.1 = k
  · rw [List.find?_cons_of_pos _ (by simpa using h), if_pos h]
    rfl
  · rw [List.find?_cons_of_neg _ (by simpa using h), if_neg h]

theorem pyGet_append_single (d : List (String × String × String))
    (e : String × String × String) (k : String) :
    pyGet (d ++ [e]) k =
      match pyGet d k with
      | some v => some v
      | none => if e.1 = k then some e.2 else none := by
  unfold pyGet
  rw [List.find?_append]
  cases hf : d.find? (fun x => x.1 == k) with
  | some y => rfl
  | none =>
    by_cases hek : e.1 = k
    · rw [List.find?_cons_of_pos _ (by simpa using hek), if_pos hek]
      rfl
    · rw [List.find?_cons_of_neg _ (by simpa using hek), if_neg hek]
      rfl

theorem pyGet_eq_none_iff (d : List (String × String × String)) (k : String) :
    pyGet d k = none ↔ ∀ x ∈ d, ¬x.1 = k := by
  unfold pyGet
  simp [List.find?_eq_none]

theorem find?_map_miss (d : List (String × String × String)) (k k2 : String)
    (v : String × String) (hne : k2 ≠ k) :
    (d.map (fun e => if e.1 == k then (k, v) else e)).find? (fun e => e.1 == k2) =
      d.find? (fun e => e.1 == k2) := by
  induction d with
  | nil => rfl
  | cons e d ih =>
    by_cases he : e.1 = k
    · rw [List.map_cons, if_pos (by simpa using he)]
      rw [List.find?_cons_of_neg _ (by simp; exact fun h => hne h.symm),
        List.find?_cons_of_neg _ (by simp [he]; exact fun h => hne h.symm)]
      exact ih
    · rw [List.map_cons, if_neg (by simpa using he)]
      by_cases h2 : e.1 = k2
      · rw [List.find?_cons_of_pos _ (by simpa using h2),
          List.find?_cons_of_pos _ (by simpa using h2)]
      · rw [List.find?_cons_of_neg _ (by simpa using h2),
          List.find?_cons_of_neg _ (by simpa using h2)]
        exact ih

theorem find?_map_hit (d : List (String × String × String)) (k : String)
    (v : String × String) (hany : d.any (fun e => e.1 == k) = true) :
    (d.map (fun e => if e.1 == k then (k, v) else e)).find? (fun e => e.1 == k) =
      some (k, v) := by
  induction d with
  | nil => simp at hany
  | cons e d ih =>
    by_cases he : e.1 = k
    · rw [List.map_cons, if_pos (by simpa using he), List.find?_cons_of_pos _ (by simp)]
    · rw [List.map_cons, if_neg (by simpa using he),
        List.find?_cons_of_neg _ (by simpa using he)]
      refine ih ?_
      rcases List.any_eq_true.1 hany with ⟨x, hx, hpx⟩
      rcases List.mem_cons.1 hx with rfl | hx2
      · exact absurd (by simpa using hpx) he
      · exact List.any_eq_true.2 ⟨x, hx2, hpx⟩

theorem pyGet_pyInsert (d : List (String × String × String)) (k k2 : String)
    (v : String × String) :
    pyGet (pyInsert d k v) k2 = if k2 = k then some v else pyGet d k2 := by
  unfold pyInsert
  by_cases hany : d.any (fun e => e.1 == k) = true
  · rw [if_pos hany]
    by_cases hk : k2 = k
    · subst hk
      rw [if_pos rfl]
      unfold pyGet
      rw [find?_map_hit d k2 v hany]
      rfl
    · rw [if_neg hk]
      unfold pyGet
      rw [find?_map_miss d k k2 v hk]
  · rw [if_neg hany]
    rw [pyGet_append_single]
    have hnone : pyGet d k = none := by
      rw [pyGet_eq_none_iff]
      intro x hx hxk
      exact hany (List.any_eq_true.2 ⟨x, hx, by simpa using hxk⟩)
    by_cases hk : k2 = k
    · subst hk
      rw [if_pos rfl, hnone]
      simp
    · rw [if_neg hk]
      cases h : pyGet d k2 with
      | some y => rfl
      | none =>
        simp only []
        rw [if_neg (fun hh => hk hh.symm)]

theorem pyGet_fileDict_aux (entries : List (String × String × String))
    (d : List (String × String × String)) (k : String) :
    pyGet (entries.foldl (fun d e => pyInsert d e.1 e.2) d) k =
      match (entries.filter (fun e => e.1 == k)).getLast? with
      | some e => some e.2
      | none => pyGet d k := by
  induction entries generalizing d with
  | nil => rfl
  | cons e es ih =>
    rw [List.foldl_cons, ih]
    by_cases he : e.1 = k
    · rw [List.filter_cons_of_pos (by simpa using he)]
      cases hlast : (es.filter (fun x => x.1 == k)).getLast? with
      | some x =>
        have h2 : (e :: es.filter (fun x => x.1 == k)).getLast? = some x := by
          cases hfe : es.filter (fun x => x.1 == k) with
          | nil => rw [hfe] at hlast; simp at hlast
          | cons y ys => rw [List.getLast?_cons_cons, ← hfe, hlast]
        rw [h2]
      | none =>
        have hfe : es.filter (fun x => x.1 == k) = [] := by
          cases hfe : es.filter (fun x => x.1 == k) with
          | nil => rfl
          | cons y ys => rw [hfe] at hlast; simp [List.getLast?_cons] at hlast
        rw [hfe]
        simp only [List.getLast?_singleton]
        rw [pyGet_pyInsert, if_pos he.symm]
    · rw [List.filter_cons_of_neg (by simpa using he)]
      cases hlast : (es.filter (fun x => x.1 == k)).getLast? with
      | some x => rfl
      | none =>
        simp only []
        rw [pyGet_pyInsert, if_neg (fun h => he h.symm)]

theorem pyGet_fileDict (entries : List (String × String × String)) (k : String) :
    pyGet (fileDict entries) k =
      match (entries.filter (fun e => e.1 == k)).getLast? with
      | some e => some e.2
      | none => none := by
  rw [fileDict, pyGet_fileDict_aux]
  cases (entries.filter (fun e => e.1 == k)).getLast? <;> rfl

theorem mergeFile_cons (acc : List (String × String × String))
    (e : String × String × String) (es : List (String × String × String)) :
    mergeFile acc (e :: es) =
      mergeFile (if acc.any (fun y => y.1 == e.1) then acc else acc ++ [e]) es := rfl

theorem pyGet_mergeFile (acc d : List (String × String × String)) (k : String) :
    pyGet (mergeFile acc d) k =
      match pyGet acc k with
      | some v => some v
      | none => pyGet d k := by
  induction d generalizing acc with
  | nil =>
    rw [show mergeFile acc [] = acc from rfl]
    cases h : pyGet acc k with
    | some v => rfl
    | none => rfl
  | cons e es ih =>
    rw [mergeFile_cons, ih, pyGet_cons]
    by_cases hany : acc.any (fun y => y.1 == e.1) = true
    · rw [if_pos hany]
      cases h : pyGet acc k with
      | some v => rfl
      | none =>
        by_cases hek : e.1 = k
        · exfalso
          rcases List.any_eq_true.1 hany with ⟨x, hx, hpx⟩
          have hxk : x.1 = k := hek ▸ (by simpa using hpx)
          exact (pyGet_eq_none_iff acc k).1 h x hx hxk
        · rw [if_neg hek]
    · rw [if_neg hany, pyGet_append_single]
      cases h : pyGet acc k with
      | some v => rfl
      | none =>
        by_cases hek : e.1 = k
        · rw [if_pos hek, if_pos hek]
        · rw [if_neg hek, if_neg hek]

theorem pyGet_runSummary_aux (dicts : List (List (String × String × String)))
    (acc : List (String × String × String)) (k : String) :
    pyGet (dicts.foldl mergeFile acc) k =
      match pyGet acc k with
      | some v => some v
      | none => summaryLookup dicts k := by
  induction dicts generalizing acc with
  | nil =>
    rw [List.foldl_nil]
    cases h : pyGet acc k with
    | some v => rfl
    | none => rfl
  | cons d ds ih =>
    rw [List.foldl_cons, ih, pyGet_mergeFile]
    cases h : pyGet acc k with
    | some v => rfl
    | none =>
      show _ = summaryLookup (d :: ds) k
      rw [summaryLookup]

theorem pyGet_runSummary (dicts : List (List (String × String × String))) (k : String) :
    pyGet (runSummary dicts) k = summaryLookup dicts k := by
  rw [runSummary, pyGet_runSummary_aux]
  cases summaryLookup dicts k with
  | some v => rfl
  | none => rfl

theorem noDigitHead_of_head_eq {x y : List Char} (h : x.head? = y.head?)
    (hy : noDigitHead y = true) : noDigitHead x = true := by
  cases x with
  | nil => rfl
  | cons c t =>
    cases y with
    | nil => simp at h
    | cons c2 t2 =>
      simp only [List.head?_cons, Option.some.injEq] at h
      subst h
      exact hy

theorem takeWhile_no_colon {X z : List Char} (hX : ':' ∉ X) :
    (X ++ ':' :: z).takeWhile (fun c => !(c == ':')) = X := by
  rw [List.takeWhile_append_of_pos, List.takeWhile_cons_of_neg (by simp), List.append_nil]
  intro a ha
  simp only [Bool.not_eq_true']
  exact beq_eq_false_iff_ne.2 (fun heq => hX (heq ▸ ha))

theorem count_colon_occOf {R M m p : List Char} (hs : OccShape R M m p) :
    (occOf R M m p).count ':' = 1 := by
  obtain ⟨hR, hext, hM, hm, hp, dM, dm, dp⟩ := hs
  have hcR : ':' ∉ R := fun hmem => by
    have := hR ':' hmem
    exact absurd this (by decide)
  have hcM : ':' ∉ M := fun hmem => by
    have := dM ':' hmem
    exact absurd this (by decide)
  have hcm : ':' ∉ m := fun hmem => by
    have := dm ':' hmem
    exact absurd this (by decide)
  have hcp : ':' ∉ p := fun hmem => by
    have := dp ':' hmem
    exact absurd this (by decide)
  have hhost : cdnHost.count ':' = 1 := by decide
  rw [occOf]
  simp [List.count_append, List.count_cons, hhost, List.count_eq_zero.2 hcR,
    List.count_eq_zero.2 hcM, List.count_eq_zero.2 hcm, List.count_eq_zero.2 hcp]

theorem matchAt_none_transfer {d t1 t2 : List Char} (hd : d ≠ [])
    (h1 : cdnHost.isPrefixOf t1 = true) (h2 : cdnHost.isPrefixOf t2 = true)
    (hn : matchAt (d ++ t1) = none) : matchAt (d ++ t2) = none := by
  cases hm : matchAt (d ++ t2) with
  | none => rfl
  | some q =>
    exfalso
    obtain ⟨b, M, m, p, r⟩ := q
    obtain ⟨R, rfl, e, hR, hext, hM, hmne, hp, dM, dm, dp, hr⟩ := matchAt_sound hm
    have e2 : d ++ t2 = occOf R M m p ++ r := by rw [occOf_append]; exact e
    obtain ⟨s1, hs1⟩ := isPrefixOf_ex h1
    obtain ⟨s2, hs2⟩ := isPrefixOf_ex h2
    have hcdn6 : cdnHost = "https:".data ++ cdnHost.drop 6 := by decide
    have hdne : d ≠ [] := hd
    have htk1 : t1.take 6 = "https:".data := by
      rw [hs1]
      conv_lhs => rw [hcdn6]
      rw [List.append_assoc, List.take_left' (by decide)]
    have htk2 : t2.take 6 = "https:".data := by
      rw [hs2]
      conv_lhs => rw [hcdn6]
      rw [List.append_assoc, List.take_left' (by decide)]
    have htake1 : (d ++ t1).take (d.length + 6) = d ++ "https:".data := by
      rw [List.take_append, htk1]
    have htake2 : (d ++ t2).take (d.length + 6) = d ++ "https:".data := by
      rw [List.take_append, htk2]
    have hLpre : (d ++ t2).take (occOf R M m p).length = occOf R M m p := by
      rw [e2, List.take_left]
    have hH52 : cdnHost.length = 52 := by decide
    by_cases hlen : (occOf R M m p).length ≤ d.length + 5
    · have hLpre1 : (d ++ t1).take (occOf R M m p).length = occOf R M m p := by
        have q1 : (d ++ t1).take (occOf R M m p).length =
            ((d ++ t1).take (d.length + 6)).take (occOf R M m p).length := by
          rw [List.take_take, Nat.min_eq_left (by omega)]
        have q2 : (d ++ t2).take (occOf R M m p).length =
            ((d ++ t2).take (d.length + 6)).take (occOf R M m p).length := by
          rw [List.take_take, Nat.min_eq_left (by omega)]
        rw [q1, htake1, ← htake2, ← q2, hLpre]
      have e1 : d ++ t1 = occOf R M m p ++ (d ++ t1).drop (occOf R M m p).length := by
        conv_lhs => rw [← List.take_append_drop (occOf R M m p).length (d ++ t1)]
        rw [hLpre1]
      have hrne : r ≠ [] := by
        intro h0
        rw [h0, List.append_nil] at e2
        have hlen2 : (d ++ t2).length = (occOf R M m p).length := by rw [e2]
        rw [List.length_append, hs2, List.length_append, hH52] at hlen2
        omega
      have hhead : ((d ++ t1).drop (occOf R M m p).length).head? = r.head? := by
        rw [List.head?_eq_getElem?, List.head?_eq_getElem?, List.getElem?_drop]
        have hq2 : (d ++ t2)[(occOf R M m p).length]? = r[0]? := by
          rw [e2, List.getElem?_append_right (Nat.le_refl _), Nat.sub_self]
        have hq : (d ++ t1)[(occOf R M m p).length]? = (d ++ t2)[(occOf R M m p).length]? := by
          rw [← List.getElem?_take_of_lt (show (occOf R M m p).length < d.length + 6 by omega)
              (l := d ++ t1),
            ← List.getElem?_take_of_lt (show (occOf R M m p).length < d.length + 6 by omega)
              (l := d ++ t2), htake1, htake2]
        rw [Nat.add_zero, hq, hq2]
      have hndh : noDigitHead ((d ++ t1).drop (occOf R M m p).length) = true :=
        noDigitHead_of_head_eq hhead hr
      have hsome := matchAt_complete (B := (d ++ t1).drop (occOf R M m p).length)
        ⟨hR, hext, hM, hmne, hp, dM, dm, dp⟩ hndh
      rw [← e1, hn] at hsome
      exact absurd hsome (by simp)
    · push_neg at hlen
      have hLfront : (occOf R M m p).take (d.length + 6) = d ++ "https:".data := by
        rw [← hLpre, List.take_take, Nat.min_eq_left (by omega), htake2]
      have hLdecomp : occOf R M m p =
          (d ++ "https".data) ++ ':' :: (occOf R M m p).drop (d.length + 6) := by
        conv_lhs => rw [← List.take_append_drop (d.length + 6) (occOf R M m p)]
        rw [hLfront]
        have : "https:".data = "https".data ++ [':'] := by decide
        rw [this]
        simp [List.append_assoc]
      have hcount : (occOf R M m p).count ':' = 1 :=
        count_colon_occOf ⟨hR, hext, hM, hmne, hp, dM, dm, dp⟩
      have hdo : ':' ∉ d ∧ ':' ∉ (occOf R M m p).drop (d.length + 6) := by
        rw [hLdecomp, show (':' :: (occOf R M m p).drop (d.length + 6)) =
            [':'] ++ (occOf R M m p).drop (d.length + 6) from rfl] at hcount
        rw [List.count_append, List.count_append, List.count_append,
          show List.count ':' "https".data = 0 from by decide,
          show List.count ':' [':'] = 1 from by decide] at hcount
        constructor
        · rw [← List.count_eq_zero (a := ':')]
          omega
        · rw [← List.count_eq_zero (a := ':')]
          omega
      have hw1 : (occOf R M m p).takeWhile (fun c => !(c == ':')) = d ++ "https".data := by
        conv_lhs => rw [hLdecomp]
        refine takeWhile_no_colon ?_
        intro hmem
        rcases List.mem_append.1 hmem with hmem | hmem
        · exact hdo.1 hmem
        · exact absurd hmem (by decide)
      have hw2 : (occOf R M m p).takeWhile (fun c => !(c == ':')) = "https".data := by
        have hocc2 : occOf R M m p = "https".data ++ ':' ::
            (cdnHost.drop 6 ++ (R ++ '?' :: 'v' :: '=' :: (M ++ '.' :: m ++ '.' :: p))) := by
          rw [occOf]
          conv_lhs => rw [hcdn6]
          have : "https:".data = "https".data ++ [':'] := by decide
          rw [this]
          simp [List.append_assoc]
        conv_lhs => rw [hocc2]
        exact takeWhile_no_colon (by decide)
      rw [hw2] at hw1
      have : ("https".data).length = (d ++ "https".data).length := by rw [← hw1]
      rw [List.length_append] at this
      have hd0 : d.length = 0 := by
        have : ("https".data).length = 5 := by decide
        omega
      exact hdne (List.length_eq_zero.1 hd0)

theorem fnameOf_host {R : List Char} (hR : ∀ c ∈ R, isClassChar c = true) :
    fnameOf (cdnHost ++ R) = R := by
  have hpos : ∀ a ∈ R.reverse, (fun c => !(c == '/')) a = true := by
    intro a ha
    rw [List.mem_reverse] at ha
    have hc := hR a ha
    simp only [Bool.not_eq_true']
    refine beq_eq_false_iff_ne.2 (fun heq => ?_)
    subst heq
    exact absurd hc (by decide)
  unfold fnameOf
  rw [List.reverse_append, List.takeWhile_append_of_pos hpos,
    show cdnHost.reverse.takeWhile (fun c => !(c == '/')) = [] from by decide,
    List.append_nil, List.reverse_reverse]

theorem scan_occ_step {R M m p B : List Char} (hs : OccShape R M m p)
    (hB : noDigitHead B = true) :
    updateCdnAux (occOf R M m p ++ B) =
      (occOf R M m (pad2 (digitsToNat p + 1)) ++ (updateCdnAux B).1,
        (updateCdnAux B).2.1 + 1,
        (String.mk R, String.mk (M ++ '.' :: m ++ '.' :: p),
          String.mk (M ++ '.' :: m ++ '.' :: pad2 (digitsToNat p + 1))) ::
          (updateCdnAux B).2.2) := by
  obtain ⟨hR, hext, hM, hm, hp, dM, dm, dp⟩ := hs
  rw [updateCdn_step (matchAt_complete ⟨hR, hext, hM, hm, hp, dM, dm, dp⟩ hB),
    increment_version_triple hM hm hp dM dm dp, fnameOf_host hR]
  simp only [data_mk, occOf, List.append_assoc, List.cons_append]

theorem scan_nil_of_noStart {C : List Char} (h : NoStart C []) :
    updateCdnAux C = (C, 0, []) := by
  have h2 := updateCdn_noStart h
  rw [List.append_nil, updateCdn_nil] at h2
  rw [h2, List.append_nil]

theorem matchAt_none_scan (l : List Char) :
    ∀ d, d ≠ [] → matchAt (d ++ l) = none → matchAt (d ++ (updateCdnAux l).1) = none := by
  induction l using updateCdnAux.induct with
  | case1 l b M m p r h ih =>
    intro d hd hn
    rw [updateCdn_step h]
    obtain ⟨R, rfl, e, hR, hext, hM, hm, hp, dM, dm, dp, hr⟩ := matchAt_sound h
    have h1 : cdnHost.isPrefixOf l = true := by
      rw [e, List.append_assoc]
      exact isPrefixOf_append_self _ _
    refine matchAt_none_transfer hd h1 ?_ hn
    rw [List.append_assoc]
    exact isPrefixOf_append_self _ _
  | case2 h1 h2 =>
    intro d hd hn
    rw [updateCdn_nil]
    exact hn
  | case3 c cs h1 h2 ih =>
    intro d hd hn
    rw [updateCdn_copy h1]
    have hrw : d ++ c :: (updateCdnAux cs).1 = (d ++ [c]) ++ (updateCdnAux cs).1 := by simp
    rw [hrw]
    refine ih (d ++ [c]) (by simp) ?_
    have hrw2 : (d ++ [c]) ++ cs = d ++ c :: cs := by simp
    rw [hrw2]
    exact hn

theorem scan_again (l : List Char) :
    (updateCdnAux (updateCdnAux l).1).2.1 = (updateCdnAux l).2.1 ∧
    (updateCdnAux (updateCdnAux l).1).2.2 =
      (updateCdnAux l).2.2.map (fun e => (e.1, e.2.2, increment_version e.2.2)) := by
  induction l using updateCdnAux.induct with
  | case1 l b M m p r h ih =>
    obtain ⟨R, rfl, e, hR, hext, hM, hm, hp, dM, dm, dp, hr⟩ := matchAt_sound h
    rw [updateCdn_step h, increment_version_triple hM hm hp dM dm dp, fnameOf_host hR]
    simp only []
    have hout : (cdnHost ++ R) ++ '?' :: 'v' :: '=' ::
        (String.mk (M ++ '.' :: m ++ '.' :: pad2 (digitsToNat p + 1))).data ++
          (updateCdnAux r).1 =
        occOf R M m (pad2 (digitsToNat p + 1)) ++ (updateCdnAux r).1 := by
      simp [occOf, data_mk, List.append_assoc]
    rw [hout]
    have hs2 : OccShape R M m (pad2 (digitsToNat p + 1)) :=
      ⟨hR, hext, hM, hm, pad2_ne_nil _, dM, dm, pad2_all_digit _⟩
    have hnd : noDigitHead (updateCdnAux r).1 = true :=
      noDigitHead_of_head_eq (scan_head r) hr
    rw [scan_occ_step hs2 hnd]
    constructor
    · simp [ih.1]
    · simp only [List.map_cons, ih.2,
        increment_version_triple hM hm (pad2_ne_nil _) dM dm (pad2_all_digit _)]
  | case2 h1 h2 => simp [updateCdn_nil]
  | case3 c cs h1 h2 ih =>
    rw [updateCdn_copy h1]
    simp only []
    have hn2 : matchAt (c :: (updateCdnAux cs).1) = none := by
      have := matchAt_none_scan cs [c] (by simp) (by simpa using h1)
      simpa using this
    rw [updateCdn_copy hn2]
    exact ⟨by simp [ih.1], by simp [ih.2]⟩

theorem mainStep_fs_none (st : (String → Option String) × List String × Nat × Nat ×
    List (String × String × String)) (path p : String) (h : st.1 p = none) :
    (mainStep st path).1 p = none := by
  unfold mainStep process_html_file
  cases hf : st.1 path with
  | none => simp [h]
  | some content =>
    by_cases hc : 0 < (update_cdn_versions content).2.1
    · have hne : p ≠ path := fun he => by rw [he, hf] at h; exact Option.noConfusion h
      simp [hc, hne, h]
    · simp [hc, h]

theorem mainStep_errs_mono (st : (String → Option String) × List String × Nat × Nat ×
    List (String × String × String)) (path p : String) (h : p ∈ st.2.1) :
    p ∈ (mainStep st path).2.1 := by
  unfold mainStep
  simp only []
  split
  · exact List.mem_append_left _ h
  · split
    · exact h
    · exact h

theorem mainStep_err_log (st : (String → Option String) × List String × Nat × Nat ×
    List (String × String × String)) (p : String) (h : st.1 p = none) :
    (mainStep st p).2.1 = st.2.1 ++ [p] := by
  unfold mainStep process_html_file
  simp [h]

theorem foldl_errs_mono (paths : List String)
    (st : (String → Option String) × List String × Nat × Nat ×
      List (String × String × String)) (p : String) (h : p ∈ st.2.1) :
    p ∈ (paths.foldl mainStep st).2.1 := by
  induction paths generalizing st with
  | nil => exact h
  | cons q qs ih => exact ih _ (mainStep_errs_mono st q p h)

theorem foldl_err_mem (paths : List String)
    (st : (String → Option String) × List String × Nat × Nat ×
      List (String × String × String)) (p : String)
    (hfs : st.1 p = none) (hp : p ∈ paths) :
    p ∈ (paths.foldl mainStep st).2.1 := by
  induction paths generalizing st with
  | nil => simp at hp
  | cons q qs ih =>
    rw [List.foldl_cons]
    rcases List.mem_cons.1 hp with rfl | hmem
    · refine foldl_errs_mono qs _ p ?_
      rw [mainStep_err_log st p hfs]
      simp
    · exact ih _ (mainStep_fs_none st q p hfs) hmem

/-- A text that begins with a MAJOR.MINOR.PATCH triple: three nonempty
digit groups separated by dots, followed by anything. -/
def TripleStart (l : List Char) : Prop :=
  ∃ M m p rest, M ≠ [] ∧ m ≠ [] ∧ p ≠ [] ∧
    (∀ c ∈ M, c.isDigit = true) ∧ (∀ c ∈ m, c.isDigit = true) ∧
    (∀ c ∈ p, c.isDigit = true) ∧ l = M ++ '.' :: (m ++ '.' :: (p ++ rest))

/-- C1.  On every input that begins with a MAJOR.MINOR.PATCH triple of
digit groups (the patch group maximal), `increment_version` returns the
string MAJOR.MINOR.PATCH2 where MAJOR and MINOR are the original digit
strings verbatim and PATCH2 renders the numeric patch value plus one,
zero-padded to a minimum width of two digits and never truncated
(`digitsToNat (pad2 k) = k` and `2 ≤ (pad2 k).length`); in particular
`increment("1.1.27") = "1.1.28"`, `increment("1.1.9") = "1.1.10"`,
`increment("2.0.99") = "2.0.100"`, and a major of `"01"` stays
`"01"`. -/
theorem increment_version_spec :
    (∀ M m p rest : List Char, M ≠ [] → m ≠ [] → p ≠ [] →
      (∀ c ∈ M, c.isDigit = true) → (∀ c ∈ m, c.isDigit = true) →
      (∀ c ∈ p, c.isDigit = true) → noDigitHead rest = true →
      increment_version (String.mk (M ++ '.' :: (m ++ '.' :: (p ++ rest)))) =
        String.mk (M ++ '.' :: m ++ '.' :: pad2 (digitsToNat p + 1))) ∧
    (∀ k : Nat, digitsToNat (pad2 k) = k ∧ 2 ≤ (pad2 k).length) ∧
    increment_version "1.1.27" = "1.1.28" ∧
    increment_version "1.1.9" = "1.1.10" ∧
    increment_version "2.0.99" = "2.0.100" ∧
    increment_version "01.1.27" = "01.1.28" := by
  refine ⟨?_, fun k => ⟨digitsToNat_pad2 k, pad2_length k⟩,
    by decide, by decide, by decide, by decide⟩
  intro M m p rest hM hm hp dM dm dp hrest
  unfold increment_version
  rw [show (String.mk (M ++ '.' :: (m ++ '.' :: (p ++ rest)))).data =
      M ++ '.' :: (m ++ '.' :: (p ++ rest)) from rfl,
    parseTriple_complete hM hm hp dM dm dp hrest]

/-- Witness for C1: the theorem applied at major `"01"`, minor `"1"`,
patch `"09"` followed by the non-digit text `"-x"`; the patch becomes
`10` while the major keeps its leading zero. -/
theorem increment_version_spec_witness :
    increment_version (String.mk ("01".data ++ '.' :: ("1".data ++ '.' :: ("09".data ++ "-x".data)))) =
      String.mk ("01".data ++ '.' :: "1".data ++ '.' :: pad2 (digitsToNat "09".data + 1)) :=
  increment_version_spec.1 "01".data "1".data "09".data "-x".data
    (by decide) (by decide) (by decide) (by decide) (by decide) (by decide) (by decide)

/-- C3.  On every input that does not begin with a MAJOR.MINOR.PATCH
triple, `increment_version` is a silent no-op: it returns the input
unchanged (it is a total function, so no error can be raised). -/
theorem increment_version_noop (s : String) (h : ¬TripleStart s.data) :
    increment_version s = s := by
  have hp : parseTriple s.data = none := by
    cases hq : parseTriple s.data with
    | none => rfl
    | some q =>
      exfalso
      obtain ⟨M, m, p, r⟩ := q
      obtain ⟨e, hM, hm, hpp, dM, dm, dp, -⟩ := parseTriple_sound hq
      exact h ⟨M, m, p, r, hM, hm, hpp, dM, dm, dp, e⟩
  unfold increment_version
  rw [hp]

/-- Witness for C3: `increment_version "abc"` returns `"abc"`; the text
begins with no digit triple because it contains no dot at all. -/
theorem increment_version_noop_witness : increment_version "abc" = "abc" :=
  increment_version_noop "abc" (fun h => by
    obtain ⟨M, m, p, rest, hM, hm, hp, dM, dm, dp, heq⟩ := h
    have hdot : ('.' : Char) ∈ "abc".data := by
      rw [heq]
      simp
    exact absurd hdot (by decide))

theorem mk_data_self (s : String) : String.mk s.data = s := rfl

/-- C7.  On content with zero qualifying occurrences (no position of the
text starts a match of the CDN pattern), `update_cdn_versions` returns
the content byte-identical, a change count of zero, and an empty
mapping. -/
theorem update_cdn_versions_no_match (content : String)
    (h : NoStart content.data []) :
    update_cdn_versions content = (content, 0, []) ∧
    fileDict (update_cdn_versions content).2.2 = [] := by
  have h2 := scan_nil_of_noStart h
  unfold update_cdn_versions
  simp only []
  rw [h2]
  exact ⟨by rw [mk_data_self], rfl⟩

/-- Witness for C7: plain text with no CDN reference at all is returned
unchanged with count zero and an empty map. -/
theorem update_cdn_versions_no_match_witness :
    update_cdn_versions "<p>hello world</p>" = ("<p>hello world</p>", 0, []) ∧
    fileDict (update_cdn_versions "<p>hello world</p>").2.2 = [] :=
  update_cdn_versions_no_match "<p>hello world</p>" (by decide)

/-- C4.  For content consisting of a front part `A`, one qualifying
occurrence, and a back part `B` (where no match starts inside `A` or
`B`, and `B` does not begin with a digit), `update_cdn_versions`
replaces exactly the matched span with the captured base (host prefix
plus filename) followed by `?v=` and the incremented version, and
leaves every character of `A` and `B` byte-identical; the recorded
change maps the filename (the last path segment of the base) to the old
and new version strings. -/
theorem update_cdn_versions_frame :
    ∀ (A R M m p B : List Char), OccShape R M m p → noDigitHead B = true →
    NoStart A (occOf R M m p ++ B) → NoStart B [] →
    update_cdn_versions (String.mk (A ++ (occOf R M m p ++ B))) =
      (String.mk (A ++ (occOf R M m (pad2 (digitsToNat p + 1)) ++ B)), 1,
        [(String.mk R, String.mk (M ++ '.' :: m ++ '.' :: p),
          String.mk (M ++ '.' :: m ++ '.' :: pad2 (digitsToNat p + 1)))]) := by
  intro A R M m p B hs hB hA hBn
  unfold update_cdn_versions
  simp only [data_mk]
  rw [updateCdn_noStart hA, scan_occ_step hs hB, scan_nil_of_noStart hBn]

/-- Witness for C4: a concrete page with one occurrence of
`a.js?v=1.2.3` between unrelated text is rewritten to `a.js?v=1.2.04`
with both surroundings intact. -/
theorem update_cdn_versions_frame_witness :
    update_cdn_versions (String.mk ("x ".data ++
        (occOf "a.js".data "1".data "2".data "3".data ++ " y".data))) =
      (String.mk ("x ".data ++
        (occOf "a.js".data "1".data "2".data (pad2 (digitsToNat "3".data + 1)) ++ " y".data)),
        1,
        [(String.mk "a.js".data, String.mk ("1".data ++ '.' :: "2".data ++ '.' :: "3".data),
          String.mk ("1".data ++ '.' :: "2".data ++ '.' ::
            pad2 (digitsToNat "3".data + 1)))]) :=
  update_cdn_versions_frame "x ".data "a.js".data "1".data "2".data "3".data " y".data
    (by decide) (by decide) (by decide) (by decide)

/-- C2.  Matching is global, left-to-right, and non-overlapping: on
content of the form `A ++ occ1 ++ B ++ occ2 ++ C` where `occ1` and
`occ2` are qualifying occurrences, no match starts inside `A`, `B` or
`C`, and each occurrence's version triple is maximal (what follows it
does not begin with a digit), `update_cdn_versions` rewrites both
occurrences, not just the first.  Moreover an occurrence qualifies
exactly when it is the fixed CDN host prefix, immediately followed by a
filename of class characters (word characters, dots, underscores,
hyphens) ending in `.js` or `.css`, immediately followed by `?v=` and a
digit triple: such a text always matches (second conjunct), and every
match has this shape (third conjunct). -/
theorem update_cdn_versions_global :
    (∀ A R1 M1 m1 p1 B R2 M2 m2 p2 C : List Char,
      OccShape R1 M1 m1 p1 → OccShape R2 M2 m2 p2 →
      noDigitHead (B ++ (occOf R2 M2 m2 p2 ++ C)) = true → noDigitHead C = true →
      NoStart A (occOf R1 M1 m1 p1 ++ (B ++ (occOf R2 M2 m2 p2 ++ C))) →
      NoStart B (occOf R2 M2 m2 p2 ++ C) → NoStart C [] →
      updateCdnAux (A ++ (occOf R1 M1 m1 p1 ++ (B ++ (occOf R2 M2 m2 p2 ++ C)))) =
        (A ++ (occOf R1 M1 m1 (pad2 (digitsToNat p1 + 1)) ++
          (B ++ (occOf R2 M2 m2 (pad2 (digitsToNat p2 + 1)) ++ C))), 2,
         [(String.mk R1, String.mk (M1 ++ '.' :: m1 ++ '.' :: p1),
           String.mk (M1 ++ '.' :: m1 ++ '.' :: pad2 (digitsToNat p1 + 1))),
          (String.mk R2, String.mk (M2 ++ '.' :: m2 ++ '.' :: p2),
           String.mk (M2 ++ '.' :: m2 ++ '.' :: pad2 (digitsToNat p2 + 1)))])) ∧
    (∀ R M m p B : List Char, OccShape R M m p → noDigitHead B = true →
      matchAt (occOf R M m p ++ B) = some (cdnHost ++ R, M, m, p, B)) ∧
    (∀ l b M m p r : List Char, matchAt l = some (b, M, m, p, r) →
      ∃ R, b = cdnHost ++ R ∧ OccShape R M m p ∧ l = occOf R M m p ++ r ∧
        noDigitHead r = true) ∧
    (∀ content : String, update_cdn_versions content =
      (String.mk (updateCdnAux content.data).1, (updateCdnAux content.data).2.1,
        (updateCdnAux content.data).2.2)) := by
  refine ⟨?_, fun R M m p B hs hB => matchAt_complete hs hB, ?_, fun content => rfl⟩
  · intro A R1 M1 m1 p1 B R2 M2 m2 p2 C hs1 hs2 hB1 hC hA hB hCn
    rw [updateCdn_noStart hA, scan_occ_step hs1 hB1, updateCdn_noStart hB,
      scan_occ_step hs2 hC, scan_nil_of_noStart hCn]
  · intro l b M m p r h
    obtain ⟨R, hb, e, hR, hext, hM, hm, hp, dM, dm, dp, hr⟩ := matchAt_sound h
    exact ⟨R, hb, ⟨hR, hext, hM, hm, hp, dM, dm, dp⟩,
      by rw [e, occOf_append, List.append_assoc], hr⟩

/-- Witness for C2: a page with `a.js?v=1.2.3` and `b.css?v=0.0.9`
separated by a space gets both occurrences rewritten, in order. -/
theorem update_cdn_versions_global_witness :
    updateCdnAux ("x ".data ++ (occOf "a.js".data "1".data "2".data "3".data ++
        (" ".data ++ (occOf "b.css".data "0".data "0".data "9".data ++ "!".data)))) =
      ("x ".data ++ (occOf "a.js".data "1".data "2".data (pad2 (digitsToNat "3".data + 1)) ++
        (" ".data ++ (occOf "b.css".data "0".data "0".data (pad2 (digitsToNat "9".data + 1)) ++
          "!".data))), 2,
       [(String.mk "a.js".data, String.mk ("1".data ++ '.' :: "2".data ++ '.' :: "3".data),
         String.mk ("1".data ++ '.' :: "2".data ++ '.' :: pad2 (digitsToNat "3".data + 1))),
        (String.mk "b.css".data, String.mk ("0".data ++ '.' :: "0".data ++ '.' :: "9".data),
         String.mk ("0".data ++ '.' :: "0".data ++ '.' ::
           pad2 (digitsToNat "9".data + 1)))]) :=
  update_cdn_versions_global.1 "x ".data "a.js".data "1".data "2".data "3".data
    " ".data "b.css".data "0".data "0".data "9".data "!".data
    (by decide) (by decide) (by decide) (by decide) (by decide) (by decide) (by decide)

/-- C5.  The rewrite is not idempotent: on any content with at least one
qualifying occurrence, running `update_cdn_versions` on its own output
rewrites again — the second run performs exactly as many changes as the
first, each recorded change of the second run starts from the first
run's new version and increments it once more, and the text changes
further. -/
theorem update_cdn_versions_not_idempotent (content : String)
    (h : 0 < (update_cdn_versions content).2.1) :
    (update_cdn_versions (update_cdn_versions content).1).2.1 =
      (update_cdn_versions content).2.1 ∧
    (update_cdn_versions (update_cdn_versions content).1).2.2 =
      (update_cdn_versions content).2.2.map
        (fun e => (e.1, e.2.2, increment_version e.2.2)) ∧
    (update_cdn_versions (update_cdn_versions content).1).1 ≠
      (update_cdn_versions content).1 := by
  have hsa := scan_again content.data
  refine ⟨?_, ?_, ?_⟩
  · show (updateCdnAux (String.mk (updateCdnAux content.data).1).data).2.1 =
      (updateCdnAux content.data).2.1
    rw [data_mk]
    exact hsa.1
  · show (updateCdnAux (String.mk (updateCdnAux content.data).1).data).2.2 = _
    rw [data_mk]
    exact hsa.2
  · intro heq
    have hpos : 0 < (updateCdnAux (updateCdnAux content.data).1).2.1 := by
      rw [hsa.1]
      exact h
    refine scan_out_ne hpos ?_
    have hd := congrArg String.data heq
    simpa [data_mk] using hd

/-- Witness for C5: applying the theorem to a content that is exactly
one occurrence `a.js?v=1.2.3`; the first run reports one change, so the
second run changes the text again with the same change count. -/
theorem update_cdn_versions_not_idempotent_witness :
    (update_cdn_versions (update_cdn_versions
        (String.mk (occOf "a.js".data "1".data "2".data "3".data))).1).2.1 =
      (update_cdn_versions (String.mk (occOf "a.js".data "1".data "2".data "3".data))).2.1 ∧
    (update_cdn_versions (update_cdn_versions
        (String.mk (occOf "a.js".data "1".data "2".data "3".data))).1).2.2 =
      (update_cdn_versions (String.mk (occOf "a.js".data "1".data "2".data "3".data))).2.2.map
        (fun e => (e.1, e.2.2, increment_version e.2.2)) ∧
    (update_cdn_versions (update_cdn_versions
        (String.mk (occOf "a.js".data "1".data "2".data "3".data))).1).1 ≠
      (update_cdn_versions (String.mk (occOf "a.js".data "1".data "2".data "3".data))).1 :=
  update_cdn_versions_not_idempotent
    (String.mk (occOf "a.js".data "1".data "2".data "3".data)) (by
      have h1 := scan_occ_step (R := "a.js".data) (M := "1".data) (m := "2".data)
        (p := "3".data) (B := ([] : List Char)) (by decide) rfl
      rw [List.append_nil] at h1
      show 0 < (updateCdnAux (occOf "a.js".data "1".data "2".data "3".data)).2.1
      rw [h1]
      simp)

/-- C10.  The updated content equals the input exactly when the change
count is zero, and every recorded change is a genuine change: the old
and new version strings differ, and the old version always parses as a
digit triple (the unparseable-version fallback of `increment_version`
is unreachable from `update_cdn_versions`). -/
theorem update_cdn_versions_progress (content : String) :
    ((update_cdn_versions content).1 = content ↔
      (update_cdn_versions content).2.1 = 0) ∧
    (∀ e ∈ (update_cdn_versions content).2.2,
      e.2.1 ≠ e.2.2 ∧ parseTriple e.2.1.data ≠ none) := by
  constructor
  · constructor
    · intro heq
      by_contra hne
      have hpos : 0 < (updateCdnAux content.data).2.1 := Nat.pos_of_ne_zero hne
      refine scan_out_ne hpos ?_
      have hd := congrArg String.data heq
      simpa [data_mk] using hd
    · intro h0
      show String.mk (updateCdnAux content.data).1 = content
      rw [scan_out_zero h0]
  · intro e he
    obtain ⟨M, m, p, hM, hm, hp, dM, dm, dp, he1, he2⟩ :=
      scan_entries content.data e he
    constructor
    · rw [he1, he2]
      intro heq
      have hd := congrArg String.data heq
      simp only [data_mk, List.append_cancel_left_eq, List.cons.injEq, true_and] at hd
      have := congrArg digitsToNat hd
      rw [digitsToNat_pad2] at this
      omega
    · rw [he1, data_mk]
      have hpt : parseTriple (M ++ '.' :: m ++ '.' :: p) = some (M, m, p, []) := by
        have := parseTriple_complete hM hm hp dM dm dp (r := []) rfl
        simpa using this
      rw [hpt]
      simp

/-- Witness for C10: on the single-occurrence content `a.js?v=1.2.3`,
the recorded change has distinct old and new versions and a parseable
old version. -/
theorem update_cdn_versions_progress_witness :
    (String.mk "a.js".data, String.mk ("1".data ++ '.' :: "2".data ++ '.' :: "3".data),
        String.mk ("1".data ++ '.' :: "2".data ++ '.' ::
          pad2 (digitsToNat "3".data + 1))).2.1 ≠
      (String.mk "a.js".data, String.mk ("1".data ++ '.' :: "2".data ++ '.' :: "3".data),
        String.mk ("1".data ++ '.' :: "2".data ++ '.' ::
          pad2 (digitsToNat "3".data + 1))).2.2 ∧
    parseTriple (String.mk "a.js".data, String.mk ("1".data ++ '.' :: "2".data ++ '.' :: "3".data),
        String.mk ("1".data ++ '.' :: "2".data ++ '.' ::
          pad2 (digitsToNat "3".data + 1))).2.1.data ≠ none :=
  (update_cdn_versions_progress
      (String.mk (occOf "a.js".data "1".data "2".data "3".data))).2
    (String.mk "a.js".data, String.mk ("1".data ++ '.' :: "2".data ++ '.' :: "3".data),
      String.mk ("1".data ++ '.' :: "2".data ++ '.' :: pad2 (digitsToNat "3".data + 1)))
    (by
      have h1 := scan_occ_step (R := "a.js".data) (M := "1".data) (m := "2".data)
        (p := "3".data) (B := ([] : List Char)) (by decide) rfl
      rw [List.append_nil] at h1
      show _ ∈ (updateCdnAux (occOf "a.js".data "1".data "2".data "3".data)).2.2
      rw [h1]
      simp)

/-- C6.  Duplicate-filename handling is asymmetric.  Within one file,
the change count equals the number of recorded occurrences (repeats of
a filename included), while the per-file dict keeps, for each filename,
only the last occurrence's (old, new) record; across files, the
run-wide summary keeps the first-seen record of a filename and never
overwrites it.  The last conjuncts exercise the within-file behavior on
a content that names `x.js` twice: the count is 2 and the dict holds a
single entry carrying the second occurrence's versions. -/
theorem update_cdn_versions_dedup :
    (∀ content : String,
      (update_cdn_versions content).2.1 = (update_cdn_versions content).2.2.length) ∧
    (∀ entries (k : String), pyGet (fileDict entries) k =
      match (entries.filter (fun e => e.1 == k)).getLast? with
      | some e => some e.2
      | none => none) ∧
    (∀ d ds (k : String) v, pyGet d k = some v →
      pyGet (runSummary (d :: ds)) k = some v) ∧
    (∀ d ds (k : String), pyGet d k = none →
      pyGet (runSummary (d :: ds)) k = pyGet (runSummary ds) k) ∧
    (update_cdn_versions (String.mk (occOf "x.js".data "1".data "1".data "4".data ++
        (" ".data ++ occOf "x.js".data "2".data "0".data "7".data)))).2.1 = 2 ∧
    fileDict (update_cdn_versions (String.mk (occOf "x.js".data "1".data "1".data "4".data ++
        (" ".data ++ occOf "x.js".data "2".data "0".data "7".data)))).2.2 =
      [(String.mk "x.js".data, String.mk ("2".data ++ '.' :: "0".data ++ '.' :: "7".data),
        String.mk ("2".data ++ '.' :: "0".data ++ '.' :: pad2 (digitsToNat "7".data + 1)))] := by
  have hdemo : updateCdnAux (occOf "x.js".data "1".data "1".data "4".data ++
      (" ".data ++ occOf "x.js".data "2".data "0".data "7".data)) =
      (occOf "x.js".data "1".data "1".data (pad2 (digitsToNat "4".data + 1)) ++
        (" ".data ++ (occOf "x.js".data "2".data "0".data (pad2 (digitsToNat "7".data + 1)) ++ [])),
        0 + 1 + 1,
        [(String.mk "x.js".data, String.mk ("1".data ++ '.' :: "1".data ++ '.' :: "4".data),
          String.mk ("1".data ++ '.' :: "1".data ++ '.' :: pad2 (digitsToNat "4".data + 1))),
         (String.mk "x.js".data, String.mk ("2".data ++ '.' :: "0".data ++ '.' :: "7".data),
          String.mk ("2".data ++ '.' :: "0".data ++ '.' :: pad2 (digitsToNat "7".data + 1)))]) := by
    have hocc2 : occOf "x.js".data "2".data "0".data "7".data =
        occOf "x.js".data "2".data "0".data "7".data ++ [] := by simp
    conv_lhs => rw [hocc2]
    rw [scan_occ_step (by decide) (by decide), updateCdn_noStart (by decide),
      scan_occ_step (B := ([] : List Char)) (by decide) rfl, updateCdn_nil]
  refine ⟨fun content => scan_count_eq_entries content.data, pyGet_fileDict, ?_, ?_, ?_, ?_⟩
  · intro d ds k v h
    rw [pyGet_runSummary]
    show summaryLookup (d :: ds) k = some v
    simp [summaryLookup, h]
  · intro d ds k h
    rw [pyGet_runSummary, pyGet_runSummary]
    simp [summaryLookup, h]
  · show (updateCdnAux (occOf "x.js".data "1".data "1".data "4".data ++
      (" ".data ++ occOf "x.js".data "2".data "0".data "7".data))).2.1 = 2
    rw [hdemo]
  · show fileDict (updateCdnAux (occOf "x.js".data "1".data "1".data "4".data ++
      (" ".data ++ occOf "x.js".data "2".data "0".data "7".data))).2.2 = _
    rw [hdemo]
    decide

/-- Witness for C6: in the run-wide summary, the first file's record for
`x.js` survives even though a later file also records `x.js`. -/
theorem update_cdn_versions_dedup_witness :
    pyGet (runSummary ([(String.mk "x.js".data, "1.0.1", "1.0.02")] ::
        [[(String.mk "x.js".data, "9.9.9", "9.9.10")]])) (String.mk "x.js".data) =
      some ("1.0.1", "1.0.02") :=
  update_cdn_versions_dedup.2.2.1 [(String.mk "x.js".data, "1.0.1", "1.0.02")]
    [[(String.mk "x.js".data, "9.9.9", "9.9.10")]] (String.mk "x.js".data)
    ("1.0.1", "1.0.02") (by decide)

/-- C8.  For a readable file, the driver writes back exactly when the
rewrite reports a positive change count: the success flag is set, the
written-back flag is true iff the count is positive, the file's content
afterwards is the updated text when the count is positive and the
original text otherwise, every other path is untouched, and when no
write happens the whole file system is unchanged. -/
theorem process_html_file_write_iff :
    ∀ (fs : String → Option String) (path content : String), fs path = some content →
    ((process_html_file fs path).2.2.1 = true ↔
      0 < (update_cdn_versions content).2.1) ∧
    (process_html_file fs path).2.1 = true ∧
    ((process_html_file fs path).1 path =
      if 0 < (update_cdn_versions content).2.1 then some (update_cdn_versions content).1
      else some content) ∧
    (∀ q, q ≠ path → (process_html_file fs path).1 q = fs q) ∧
    ((process_html_file fs path).2.2.1 = false → (process_html_file fs path).1 = fs) := by
  intro fs path content h
  unfold process_html_file
  rw [h]
  simp only []
  by_cases hc : 0 < (update_cdn_versions content).2.1
  · rw [if_pos hc]
    refine ⟨by simp [hc], rfl, by simp [hc], fun q hq => by simp [hq], fun hfalse => by simp at hfalse⟩
  · rw [if_neg hc]
    exact ⟨by simp [hc], rfl, by simp [hc, h], fun q hq => rfl, fun hfalse => rfl⟩

/-- Witness for C8: on a one-file system whose content has no CDN
occurrence, the driver succeeds, performs no write, and leaves the file
system unchanged. -/
theorem process_html_file_write_iff_witness :
    ((process_html_file (fun q => if q = "index.html" then some "hello" else none)
        "index.html").2.2.1 = true ↔ 0 < (update_cdn_versions "hello").2.1) ∧
    (process_html_file (fun q => if q = "index.html" then some "hello" else none)
        "index.html").2.1 = true ∧
    ((process_html_file (fun q => if q = "index.html" then some "hello" else none)
        "index.html").1 "index.html" =
      if 0 < (update_cdn_versions "hello").2.1 then some (update_cdn_versions "hello").1
      else some "hello") ∧
    (∀ q, q ≠ "index.html" →
      (process_html_file (fun q => if q = "index.html" then some "hello" else none)
        "index.html").1 q =
      (fun q => if q = "index.html" then some "hello" else none) q) ∧
    ((process_html_file (fun q => if q = "index.html" then some "hello" else none)
        "index.html").2.2.1 = false →
      (process_html_file (fun q => if q = "index.html" then some "hello" else none)
        "index.html").1 = (fun q => if q = "index.html" then some "hello" else none)) :=
  process_html_file_write_iff (fun q => if q = "index.html" then some "hello" else none)
    "index.html" "hello" (by simp)

theorem foldl_fs_none (paths : List String)
    (st : (String → Option String) × List String × Nat × Nat ×
      List (String × String × String)) (p : String) (h : st.1 p = none) :
    (paths.foldl mainStep st).1 p = none := by
  induction paths generalizing st with
  | nil => exact h
  | cons q qs ih => exact ih _ (mainStep_fs_none st q p h)

/-- C9.  The driver exits non-zero exactly when the HTML directory does
not exist or no files were found; a run over at least one file exits
zero no matter what per-file failures happen (the file system `fs0` is
arbitrary, so this covers unreadable files); a file whose read fails is
logged by path in the error stream while the run continues over the
remaining files; and such a file is skipped, never written by the rest
of the run. -/
theorem main_exit_spec :
    ∀ (dirExists : Bool) (paths : List String) (fs0 : String → Option String),
    ((main dirExists paths fs0).1 ≠ 0 ↔ (dirExists = false ∨ paths = [])) ∧
    (dirExists = true → paths ≠ [] → (main dirExists paths fs0).1 = 0) ∧
    (∀ p ∈ paths, fs0 p = none → dirExists = true →
      p ∈ (main dirExists paths fs0).2.2.1) ∧
    (∀ p, fs0 p = none → (main dirExists paths fs0).2.1 p = none) := by
  intro de paths fs0
  refine ⟨?_, ?_, ?_, ?_⟩
  · cases de with
    | false => simp [main]
    | true =>
      cases paths with
      | nil => simp [main]
      | cons q qs => simp [main]
  · intro hde hne
    subst hde
    cases paths with
    | nil => exact absurd rfl hne
    | cons q qs => simp [main]
  · intro p hp hfs hde
    subst hde
    have hne : paths.isEmpty = false := by
      cases paths
      · simp at hp
      · rfl
    show p ∈ (main true paths fs0).2.2.1
    unfold main
    rw [if_neg (by simp), if_neg (by simp [hne])]
    simp only []
    exact foldl_err_mem paths (fs0, [], 0, 0, []) p hfs hp
  · intro p hfs
    cases de with
    | false => simpa [main] using hfs
    | true =>
      by_cases hne : paths.isEmpty
      · simpa [main, hne] using hfs
      · unfold main
        rw [if_neg (by simp), if_neg (by simp [hne])]
        simp only []
        exact foldl_fs_none paths (fs0, [], 0, 0, []) p hfs

/-- Witness for C9: one file whose read fails still gives exit code
zero, the path appears in the error log, and the file is untouched. -/
theorem main_exit_spec_witness :
    (((main true ["a.html"] (fun _ => none)).1 ≠ 0 ↔
      (true = false ∨ ["a.html"] = [])) ∧
    (true = true → ["a.html"] ≠ [] → (main true ["a.html"] (fun _ => none)).1 = 0)) ∧
    "a.html" ∈ (main true ["a.html"] (fun _ => none)).2.2.1 ∧
    (main true ["a.html"] (fun _ => none)).2.1 "a.html" = none :=
  ⟨⟨(main_exit_spec true ["a.html"] (fun _ => none)).1,
    (main_exit_spec true ["a.html"] (fun _ => none)).2.1⟩,
    (main_exit_spec true ["a.html"] (fun _ => none)).2.2.1 "a.html" (by simp) rfl rfl,
    (main_exit_spec true ["a.html"] (fun _ => none)).2.2.2 "a.html" rfl⟩

end CdnUpdater
